import Mathlib

set_option maxRecDepth 40000

/-!
Verification of the DeckOfCards library.

Shallow embedding of `src/include/Deck.hpp` and `src/src/Deck.cpp`
(namespace `deck_of_cards`) together with proofs of the specified
properties of `Card` and `Deck`.

Modelling conventions:
* C++ enumerations `Suit` and `Value` become Lean inductive types with
  `toInt` functions giving the underlying integer values
  (`Club = 0 .. Spade = 3`, `Ace = 1 .. King = 13`).
* `std::vector<std::shared_ptr<Card>>` becomes `List Card`: the cards in
  the deck are the 52 distinct (suit, value) pairs, and handle equality
  on distinct cards coincides with structural equality.
* The process-wide generator `rand()` becomes an explicit stream
  `rand : Nat → Nat` of the successive non-negative values returned by
  `rand()`; `srand(time(NULL))` (seeding) has no observable effect on any
  verified property and is not modelled.
* `size_t` arithmetic is `Nat` arithmetic reduced mod `2^64` at the two
  places where wrap-around can occur in the source (`m_cards.size() - 1`
  and `i + 1` in `Deck::shuffle`).
* Undefined behaviour (modulo by zero, out-of-range element access)
  makes the modelled operation return `none`.
-/

namespace DeckOfCards

/-- Model of `enum class Suit \x7b Club = 0, Diamond, Heart, Spade \x7d`. -/
inductive Suit where
  | Club
  | Diamond
  | Heart
  | Spade
deriving DecidableEq, BEq, Repr, Fintype

/-- Model of `static_cast<int>` on `Suit`: the underlying enumerator values. -/
def Suit.toInt : Suit → Nat
  | .Club => 0
  | .Diamond => 1
  | .Heart => 2
  | .Spade => 3

/-- Model of `enum class Value \x7b Ace = 1, Two, ..., King \x7d`. -/
inductive Value where
  | Ace
  | Two
  | Three
  | Four
  | Five
  | Six
  | Seven
  | Eight
  | Nine
  | Ten
  | Jack
  | Queen
  | King
deriving DecidableEq, BEq, Repr, Fintype

/-- Model of `static_cast<int>` on `Value`: the underlying enumerator values. -/
def Value.toInt : Value → Nat
  | .Ace => 1
  | .Two => 2
  | .Three => 3
  | .Four => 4
  | .Five => 5
  | .Six => 6
  | .Seven => 7
  | .Eight => 8
  | .Nine => 9
  | .Ten => 10
  | .Jack => 11
  | .Queen => 12
  | .King => 13

/-- The constexpr initializer list `Suits` (enumeration order). -/
def Suits : List Suit := [.Club, .Diamond, .Heart, .Spade]

/-- The constexpr initializer list `Values` (enumeration order). -/
def Values : List Value :=
  [.Ace, .Two, .Three, .Four, .Five, .Six, .Seven, .Eight, .Nine, .Ten,
   .Jack, .Queen, .King]

/-- Model of `class Card`: an immutable (suit, value) pair.  The constructor
`Card::Card(Suit suit, Value value)` stores its two arguments in
`m_suit` and `m_value`; nothing ever writes to them afterwards. -/
structure Card where
  m_suit : Suit
  m_value : Value
deriving DecidableEq, Repr, Fintype

/-- Accessor `Card::suit()`. -/
def Card.suit (c : Card) : Suit := c.m_suit

/-- Accessor `Card::value()`. -/
def Card.value (c : Card) : Value := c.m_value

/-- Model of `Card::operator==`: `m_suit == other.m_suit && m_value == other.m_value`. -/
def Card.eq (c other : Card) : Bool :=
  c.m_suit == other.m_suit && c.m_value == other.m_value

/-- Model of `CardHash::operator()`: `std::hash<int>()(int(suit)) ^ std::hash<int>()(int(value))`.
The library hash `std::hash<int>` is implementation defined, so it is
abstracted as an arbitrary function `h : Nat → Nat`; `^` is bitwise xor. -/
def CardHash (h : Nat → Nat) (card : Card) : Nat :=
  Nat.xor (h card.suit.toInt) (h card.value.toInt)

/-- Model of `CardEqual::operator()`: dereference both (non-null) handles and
compare with `Card::operator==`. -/
def CardEqual (lhs rhs : Card) : Bool :=
  Card.eq lhs rhs

/-- The body of the `Deck::Deck()` constructor loop: for each suit in
`Suits` (outer), for each value in `Values` (inner), push
`make_shared<Card>(suit, value)` onto `m_cards`. -/
def standardDeck : List Card :=
  Suits.flatMap (fun suit => Values.map (fun value => Card.mk suit value))

/-- Model of `class Deck`: the two card sequences.  The `shared_ptr` handles in
`m_original_cards` are the same handles pushed into `m_cards` at
construction; both sequences are modelled by the card values. -/
structure Deck where
  m_cards : List Card
  m_original_cards : List Card
deriving DecidableEq

/-- Model of `Deck::Deck()`: build the 52 cards in nested loop order into
`m_cards`, then copy the sequence into `m_original_cards`. -/
def Deck.construct : Deck :=
  { m_cards := standardDeck, m_original_cards := standardDeck }

/-- Model of `Deck::num_cards()`: returns `m_cards.size()`. -/
def Deck.num_cards (d : Deck) : Nat := d.m_cards.length

/-- Model of `Deck::reset()`: the vector copy assignment `m_cards = m_original_cards`. -/
def Deck.reset (d : Deck) : Deck :=
  { d with m_cards := d.m_original_cards }

/-- Model of `Deck::deal_card()`: if `m_cards.size() > 0`, copy `m_cards.back()`,
`pop_back()`, and return the card; otherwise return `nullptr` (modelled
as `none`). -/
def Deck.deal_card (d : Deck) : Option Card × Deck :=
  match d.m_cards.getLast? with
  | some card => (some card, { d with m_cards := d.m_cards.dropLast })
  | none => (none, d)

/-- Model of `std::iter_swap(begin + a, begin + b)`: exchange the elements at
positions `a` and `b` (both read from the original sequence). -/
def swapAt (l : List Card) (a b : Nat) : List Card :=
  (l.set a (l.getD b (Card.mk .Club .Ace))).set b (l.getD a (Card.mk .Club .Ace))

/-- The loop of `Deck::shuffle`, with `i` the current value of the
`size_t` loop counter (already reduced mod `2^64` by `shuffle`) and `k`
the number of `rand()` calls made so far.  Each iteration computes
`int j = rand() % (i + 1)` — where `i + 1` is `size_t` arithmetic, so it
wraps to `0` when `i = 2^64 - 1`, making the modulo undefined behaviour
(`none`) — then swaps positions `i` and `j`; accessing a position out of
range is likewise undefined behaviour (`none`). -/
def shuffleLoop (rand : Nat → Nat) : List Card → Nat → Nat → Option (List Card)
  | l, 0, _ => some l
  | l, i + 1, k =>
    if (i + 2) % 2 ^ 64 = 0 then none
    else if i + 1 < l.length ∧ rand k % ((i + 2) % 2 ^ 64) < l.length then
      shuffleLoop rand (swapAt l (i + 1) (rand k % ((i + 2) % 2 ^ 64))) i (k + 1)
    else none

/-- Model of `Deck::shuffle()`: `for (size_t i = m_cards.size() - 1; i > 0; --i)`
with the Fisher–Yates swap in the body.  The initial counter value
`m_cards.size() - 1` is `size_t` arithmetic: for an empty deck it wraps
to `2^64 - 1`. -/
def Deck.shuffle (d : Deck) (rand : Nat → Nat) : Option Deck :=
  (shuffleLoop rand d.m_cards ((d.m_cards.length + (2 ^ 64 - 1)) % 2 ^ 64) 0).map
    (fun l => { d with m_cards := l })

/-- Iterated `deal_card`, applied `n` times and collecting the returned handles in
call order. -/
def dealN (d : Deck) : Nat → List (Option Card) × Deck
  | 0 => ([], d)
  | n + 1 =>
    let r := d.deal_card
    let rest := dealN r.2 n
    (r.1 :: rest.1, rest.2)

/-- A client call on a `Deck`: `shuffle()` (with the `rand()` values it
will consume), `deal_card()` (result discarded), or `reset()`. -/
inductive Op where
  | shuffle (rand : Nat → Nat)
  | deal
  | reset

/-- Execute one call on the deck; `none` when the call runs into
undefined behaviour (only `shuffle` on an empty deck can). -/
def stepOp (d : Deck) : Op → Option Deck
  | .shuffle rand => d.shuffle rand
  | .deal => some (d.deal_card).2
  | .reset => some d.reset

/-- Execute a sequence of calls left to right. -/
def runOps : List Op → Deck → Option Deck
  | [], d => some d
  | op :: ops, d =>
    match stepOp d op with
    | some d₁ => runOps ops d₁
    | none => none

/-! ## Helper lemmas -/

/-- Replacing the element at a valid position `m` by `x` while consing the
old element in front is a permutation of consing `x` in front. -/
lemma getD_cons_set_perm (l : List Card) (m : Nat) (x dflt : Card)
    (hm : m < l.length) :
    List.Perm (l.getD m dflt :: l.set m x) (x :: l) := by
  induction l generalizing m with
  | nil => simp at hm
  | cons y ys ih =>
    cases m with
    | zero =>
      simpa using List.Perm.swap x y ys
    | succ m =>
      have hm' : m < ys.length := by simpa using hm
      have h₁ := ih m hm'
      have h₂ : List.Perm (ys.getD m dflt :: y :: ys.set m x)
          (y :: ys.getD m dflt :: ys.set m x) := List.Perm.swap y (ys.getD m dflt) _
      have h₃ : List.Perm (y :: ys.getD m dflt :: ys.set m x) (y :: x :: ys) :=
        h₁.cons y
      have h₄ : List.Perm (y :: x :: ys) (x :: y :: ys) := List.Perm.swap x y ys
      exact h₂.trans (h₃.trans h₄)

/-- Swapping two valid positions permutes the list. -/
lemma swapAt_perm (l : List Card) (a b : Nat)
    (ha : a < l.length) (hb : b < l.length) :
    List.Perm (swapAt l a b) l := by
  induction l generalizing a b with
  | nil => simp at ha
  | cons y ys ih =>
    cases a with
    | zero =>
      cases b with
      | zero => simp [swapAt]
      | succ m =>
        have hm : m < ys.length := by simpa using hb
        have : swapAt (y :: ys) 0 (m + 1) = ys.getD m (Card.mk .Club .Ace) :: ys.set m y := rfl
        rw [this]
        exact getD_cons_set_perm ys m y _ hm
    | succ n =>
      cases b with
      | zero =>
        have hn : n < ys.length := by simpa using ha
        have : swapAt (y :: ys) (n + 1) 0 = ys.getD n (Card.mk .Club .Ace) :: ys.set n y := rfl
        rw [this]
        exact getD_cons_set_perm ys n y _ hn
      | succ m =>
        have hn : n < ys.length := by simpa using ha
        have hm : m < ys.length := by simpa using hb
        have : swapAt (y :: ys) (n + 1) (m + 1) = y :: swapAt ys n m := rfl
        rw [this]
        exact (ih n m hn hm).cons y

/-- Swapping preserves the length of the list. -/
lemma swapAt_length (l : List Card) (a b : Nat) :
    (swapAt l a b).length = l.length := by
  simp [swapAt]

/-- Any successful run of the shuffle loop permutes the sequence. -/
lemma shuffleLoop_perm (rand : Nat → Nat) :
    ∀ (i k : Nat) (l l' : List Card),
      shuffleLoop rand l i k = some l' → List.Perm l' l := by
  intro i
  induction i with
  | zero =>
    intro k l l' h
    simp only [shuffleLoop] at h
    cases h
    exact List.Perm.refl l
  | succ i ih =>
    intro k l l' h
    unfold shuffleLoop at h
    by_cases hdiv : (i + 2) % 2 ^ 64 = 0
    · rw [if_pos hdiv] at h
      cases h
    · rw [if_neg hdiv] at h
      by_cases hbnd : i + 1 < l.length ∧ rand k % ((i + 2) % 2 ^ 64) < l.length
      · rw [if_pos hbnd] at h
        have hp := ih (k + 1) _ l' h
        exact hp.trans (swapAt_perm l (i + 1) _ hbnd.1 hbnd.2)
      · rw [if_neg hbnd] at h
        cases h

/-- Any successful `Deck::shuffle` permutes `m_cards` and leaves
`m_original_cards` untouched. -/
lemma Deck.shuffle_spec (d d' : Deck) (rand : Nat → Nat)
    (h : d.shuffle rand = some d') :
    List.Perm d'.m_cards d.m_cards ∧ d'.m_original_cards = d.m_original_cards := by
  unfold Deck.shuffle at h
  rw [Option.map_eq_some'] at h
  obtain ⟨l, hl, hd⟩ := h
  cases hd
  exact ⟨shuffleLoop_perm rand _ _ _ _ hl, rfl⟩

/-- Starting the shuffle loop at counter value `2^64 - 1` (what
`m_cards.size() - 1` wraps to on an empty deck) hits the modulo-by-zero
undefined behaviour in its very first iteration: `i + 1` wraps to `0`. -/
lemma shuffleLoop_top (rand : Nat → Nat) (l : List Card) (k : Nat) :
    shuffleLoop rand l (2 ^ 64 - 1) k = none := by
  show shuffleLoop rand l (18446744073709551614 + 1) k = none
  unfold shuffleLoop
  rw [if_pos (by norm_num)]

/-- Shuffling an empty deck is undefined behaviour: the `size_t`
counter initialisation wraps around and the first `rand() % (i + 1)`
divides by zero. -/
lemma Deck.shuffle_nil (d : Deck) (rand : Nat → Nat) (h : d.m_cards = []) :
    d.shuffle rand = none := by
  unfold Deck.shuffle
  rw [h]
  have hinit : ((([] : List Card).length + (2 ^ 64 - 1)) % 2 ^ 64) = 2 ^ 64 - 1 := by
    norm_num
  rw [hinit, shuffleLoop_top]
  rfl

/-- Fisher–Yates as the spec describes it (§4.2 Shuffle): for index `i`
from `live.size() - 1` down to `1`, draw an integer `j` in `[0, i]` and
swap the elements at positions `i` and `j`.  `draw k` is the value of
`j` drawn by the `k`-th iteration (the one with `i = size - 1 - k`). -/
def fisherYates (draw : Nat → Nat) : List Card → Nat → Nat → List Card
  | l, 0, _ => l
  | l, i + 1, k => fisherYates draw (swapAt l (i + 1) (draw k)) i (k + 1)

/-- On a sequence of fixed length `n` with `i < n < 2^64`, the shuffle
loop never hits undefined behaviour and computes exactly the
Fisher–Yates sequence of swaps with `j = rand k % (i + 1)`. -/
lemma shuffleLoop_eq_fisherYates (rand : Nat → Nat) (n : Nat) (hn : n < 2 ^ 64) :
    ∀ (i k : Nat) (l : List Card), l.length = n → i + k = n - 1 → i < n →
      shuffleLoop rand l i k =
        some (fisherYates (fun m => rand m % (n - m)) l i k) := by
  intro i
  induction i with
  | zero =>
    intro k l _ _ _
    simp [shuffleLoop, fisherYates]
  | succ i ih =>
    intro k l hlen hik hilt
    have hi2 : i + 2 ≤ n := by omega
    have hdiv : (i + 2) % 2 ^ 64 = i + 2 := Nat.mod_eq_of_lt (by omega)
    have hdiv0 : ¬((i + 2) % 2 ^ 64 = 0) := by omega
    have hnk : n - k = i + 2 := by omega
    have hjlt : rand k % ((i + 2) % 2 ^ 64) < l.length := by
      rw [hdiv, hlen]
      exact lt_of_lt_of_le (Nat.mod_lt _ (by omega)) hi2
    have hbnd : i + 1 < l.length ∧ rand k % ((i + 2) % 2 ^ 64) < l.length :=
      ⟨by omega, hjlt⟩
    unfold shuffleLoop
    rw [if_neg hdiv0, if_pos hbnd]
    have hlen' : (swapAt l (i + 1) (rand k % ((i + 2) % 2 ^ 64))).length = n := by
      rw [swapAt_length, hlen]
    rw [ih (k + 1) (swapAt l (i + 1) (rand k % ((i + 2) % 2 ^ 64))) hlen'
      (by omega) (by omega)]
    rw [hdiv]
    simp only [fisherYates]
    rw [hnk]

/-- Shuffling a non-empty deck of realistic size: the `size_t`
initialisation `m_cards.size() - 1` does not wrap, and the loop computes
the Fisher–Yates permutation. -/
lemma Deck.shuffle_eq_fisherYates (d : Deck) (rand : Nat → Nat)
    (hne : d.m_cards ≠ []) (hsz : d.m_cards.length < 2 ^ 64) :
    d.shuffle rand =
      some { d with
        m_cards := fisherYates (fun m => rand m % (d.m_cards.length - m))
          d.m_cards (d.m_cards.length - 1) 0 } := by
  have hpos : 0 < d.m_cards.length := List.length_pos.mpr hne
  have hinit : (d.m_cards.length + (2 ^ 64 - 1)) % 2 ^ 64 = d.m_cards.length - 1 := by
    have : d.m_cards.length + (2 ^ 64 - 1) = 2 ^ 64 + (d.m_cards.length - 1) := by omega
    rw [this, Nat.add_mod_left]
    exact Nat.mod_eq_of_lt (by omega)
  unfold Deck.shuffle
  rw [hinit, shuffleLoop_eq_fisherYates rand d.m_cards.length hsz
    (d.m_cards.length - 1) 0 d.m_cards rfl (by omega) (by omega)]
  rfl

/-! ## `dealN` lemmas -/

/-- Dealing the whole live sequence returns its cards from the back to
the front — the reverse of the live order — and empties the deck. -/
lemma dealN_all (o : List Card) :
    ∀ l : List Card, dealN ⟨l, o⟩ l.length = (l.reverse.map some, ⟨[], o⟩) := by
  intro l
  induction l using List.reverseRecOn with
  | nil => simp [dealN]
  | append_singleton xs x ih =>
    have hlen : (xs ++ [x]).length = xs.length + 1 := by simp
    rw [hlen]
    simp only [dealN, Deck.deal_card, List.getLast?_concat, List.dropLast_concat]
    rw [ih]
    simp

/-- The live size after `k` calls of `deal_card` is the truncated
subtraction `size - k`: it decreases by exactly one per successful deal
and stays at `0` once the deck is exhausted. -/
lemma dealN_num_cards (k : Nat) :
    ∀ d : Deck, (dealN d k).2.num_cards = d.num_cards - k := by
  induction k with
  | zero => intro d; simp [dealN]
  | succ k ih =>
    intro d
    simp only [dealN]
    rw [ih]
    unfold Deck.num_cards Deck.deal_card
    cases hl : d.m_cards.getLast? with
    | some c =>
      have hne : d.m_cards ≠ [] := by
        intro h
        rw [h] at hl
        simp at hl
      simp only [List.length_dropLast]
      omega
    | none =>
      have : d.m_cards = [] := List.getLast?_eq_none_iff.mp hl
      simp [this]

/-- Dealing a card never touches `m_original_cards`. -/
lemma deal_card_original (d : Deck) :
    (d.deal_card).2.m_original_cards = d.m_original_cards := by
  unfold Deck.deal_card
  cases d.m_cards.getLast? <;> rfl

/-- Iterated dealing never touches `m_original_cards`. -/
lemma dealN_original (k : Nat) :
    ∀ d : Deck, (dealN d k).2.m_original_cards = d.m_original_cards := by
  induction k with
  | zero => intro d; rfl
  | succ k ih =>
    intro d
    simp only [dealN]
    rw [ih, deal_card_original]

/-- The constructed sequence has no duplicates. -/
lemma standardDeck_nodup : standardDeck.Nodup := by decide

/-- The constructed sequence has 52 cards. -/
lemma standardDeck_length : standardDeck.length = 52 := by decide

/-- Structural equality test `Card::operator==` agrees with equality of the
modelled card values. -/
lemma card_eq_iff : ∀ c₁ c₂ : Card, Card.eq c₁ c₂ = true ↔ c₁ = c₂ := by decide

/-- A duplicate-free list of cards of the standard deck is, as a multiset,
contained in the standard deck. -/
lemma nodup_subset_multiset_le (l : List Card) (hn : l.Nodup)
    (hs : ∀ c ∈ l, c ∈ standardDeck) :
    (l : Multiset Card) ≤ (standardDeck : Multiset Card) :=
  (Multiset.le_iff_subset (Multiset.coe_nodup.mpr hn)).mpr
    (Multiset.coe_subset.mpr (fun c hc => hs c hc))

/-- Running a concatenation of call sequences runs the first part, then the
second on its result (propagating a crash). -/
lemma runOps_append (ops₁ ops₂ : List Op) :
    ∀ d : Deck, runOps (ops₁ ++ ops₂) d = (runOps ops₁ d).bind (runOps ops₂) := by
  induction ops₁ with
  | nil => intro d; rfl
  | cons op ops ih =>
    intro d
    show (match stepOp d op with
        | some d₁ => runOps (ops ++ ops₂) d₁
        | none => none) =
      (match stepOp d op with
        | some d₁ => runOps ops d₁
        | none => none).bind (runOps ops₂)
    cases stepOp d op with
    | none => rfl
    | some d₁ => exact ih d₁

/-- The state invariant maintained by every `Deck` operation: the original
sequence still holds the construction value, and the live sequence is a
duplicate-free selection from it of at most 52 cards. -/
def DeckInv (d : Deck) : Prop :=
  d.m_original_cards = standardDeck ∧ d.m_cards.Nodup ∧
  (∀ c ∈ d.m_cards, c ∈ standardDeck) ∧ d.m_cards.length ≤ 52

/-- A freshly constructed deck satisfies the invariant. -/
lemma deckInv_construct : DeckInv Deck.construct :=
  ⟨rfl, standardDeck_nodup, fun _ hc => hc, le_of_eq standardDeck_length⟩

/-- The second component of `deal_card` keeps a sublist of the live cards. -/
lemma deal_card_sublist (d : Deck) :
    (d.deal_card).2.m_cards.Sublist d.m_cards := by
  unfold Deck.deal_card
  cases d.m_cards.getLast? with
  | some c => exact List.dropLast_sublist _
  | none => exact List.Sublist.refl _

/-- Every single successful call preserves the deck invariant. -/
lemma stepOp_inv (d d' : Deck) (op : Op) (hinv : DeckInv d)
    (h : stepOp d op = some d') : DeckInv d' := by
  obtain ⟨ho, hn, hs, hl⟩ := hinv
  cases op with
  | shuffle rand =>
    have h' : d.shuffle rand = some d' := h
    obtain ⟨hperm, horig⟩ := Deck.shuffle_spec d d' rand h'
    refine ⟨horig.trans ho, hperm.nodup_iff.mpr hn, ?_, ?_⟩
    · exact fun c hc => hs c (hperm.mem_iff.mp hc)
    · rw [hperm.length_eq]
      exact hl
  | deal =>
    have h' : some (d.deal_card).2 = some d' := h
    cases h'
    have hsub := deal_card_sublist d
    refine ⟨(deal_card_original d).trans ho, List.Nodup.sublist hsub hn, ?_, ?_⟩
    · exact fun c hc => hs c (hsub.subset hc)
    · exact le_trans hsub.length_le hl
  | reset =>
    have h' : some d.reset = some d' := h
    cases h'
    refine ⟨ho, ?_, ?_, ?_⟩
    · show d.m_original_cards.Nodup
      rw [ho]
      exact standardDeck_nodup
    · show ∀ c ∈ d.m_original_cards, c ∈ standardDeck
      rw [ho]
      exact fun _ hc => hc
    · show d.m_original_cards.length ≤ 52
      rw [ho]
      exact le_of_eq standardDeck_length

/-- Every successful call sequence preserves the deck invariant. -/
lemma runOps_inv (ops : List Op) :
    ∀ d d' : Deck, DeckInv d → runOps ops d = some d' → DeckInv d' := by
  induction ops with
  | nil =>
    intro d d' hinv h
    cases h
    exact hinv
  | cons op ops ih =>
    intro d d' hinv h
    unfold runOps at h
    cases hst : stepOp d op with
    | none =>
      rw [hst] at h
      cases h
    | some d₁ =>
      rw [hst] at h
      exact ih d₁ d' (stepOp_inv d d₁ op hinv hst) h

/-! ## Claim theorems -/

/-- Claim C1: a freshly constructed deck holds exactly 52 cards, all
distinct, covering every (suit, value) combination exactly once, laid
out in the nested loop order (suit-major, values `Ace..King` within each
suit), with the live sequence equal to the original sequence. -/
theorem deck_construct_correct :
    Deck.construct.m_cards = Deck.construct.m_original_cards ∧
    Deck.construct.num_cards = 52 ∧
    Deck.construct.m_cards.Nodup ∧
    (∀ (s : Suit) (v : Value), Deck.construct.m_cards.count (Card.mk s v) = 1) ∧
    (∀ (si : Fin 4) (vi : Fin 13),
      Deck.construct.m_cards.getD (13 * si.val + vi.val) (Card.mk .Club .Ace) =
        Card.mk (Suits.getD si.val .Club) (Values.getD vi.val .Ace)) :=
  ⟨rfl, by decide, by decide, by decide, by decide⟩

/-- Claim C9: a card constructed from a suit and a value returns exactly
those from its accessors, the fields never change (the model has no
mutating operation on `Card`, so the accessors always return the
construction arguments), and `Card::operator==` holds iff both suits
match and both values match. -/
theorem card_accessors_and_equality :
    (∀ (s : Suit) (v : Value), (Card.mk s v).suit = s ∧ (Card.mk s v).value = v) ∧
    (∀ c₁ c₂ : Card, Card.eq c₁ c₂ = true ↔ (c₁.suit = c₂.suit ∧ c₁.value = c₂.value)) := by
  refine ⟨fun s v => ⟨rfl, rfl⟩, ?_⟩
  decide

/-- Claim C10: `CardHash` is consistent with `CardEqual`: whatever the
implementation-defined `std::hash<int>` is, cards judged equal by
`CardEqual` hash identically. -/
theorem cardHash_consistent_with_cardEqual (h : Nat → Nat) (c₁ c₂ : Card)
    (he : CardEqual c₁ c₂ = true) : CardHash h c₁ = CardHash h c₂ := by
  have heq : c₁ = c₂ := (card_eq_iff c₁ c₂).mp he
  rw [heq]

/-- Witness for C10 at a concrete hash function and concrete cards. -/
theorem cardHash_consistent_with_cardEqual_witness :
    CardHash Nat.succ (Card.mk .Heart .Five) = CardHash Nat.succ (Card.mk .Heart .Five) :=
  cardHash_consistent_with_cardEqual Nat.succ (Card.mk .Heart .Five) (Card.mk .Heart .Five)
    (by decide)

/-- Claim C5: dealing from an empty deck returns the absence indicator
(`nullptr`, modelled as `none`) and leaves the deck unchanged, and the
absence indicator is returned exactly when the live sequence is empty. -/
theorem deal_card_empty_absence (d : Deck) :
    (d.m_cards = [] → d.deal_card = (none, d)) ∧
    ((d.deal_card).1 = none ↔ d.m_cards = []) := by
  constructor
  · intro h
    unfold Deck.deal_card
    rw [h]
    rfl
  · rcases hgl : d.m_cards.getLast? with _ | c
    · have h0 : d.m_cards = [] := List.getLast?_eq_none_iff.mp hgl
      unfold Deck.deal_card
      rw [hgl]
      simp [h0]
    · have hne : d.m_cards ≠ [] := by
        intro h0
        rw [h0] at hgl
        cases hgl
      unfold Deck.deal_card
      rw [hgl]
      simp [hne]

/-- Witness for C5 at a concrete exhausted deck. -/
theorem deal_card_empty_absence_witness :
    (Deck.mk [] standardDeck).deal_card = (none, Deck.mk [] standardDeck) :=
  (deal_card_empty_absence (Deck.mk [] standardDeck)).1 rfl

/-- Claim C4: dealing 52 times from a fresh deck yields 52 distinct
non-absent cards (in fact exactly the constructed sequence from the back),
the 53rd deal yields the absence indicator, and the card count after `k`
deals is the truncated difference `52 - k` — it drops by exactly one per
successful deal and never goes below zero. -/
theorem fresh_deck_deal_monotonic :
    (dealN Deck.construct 52).1 = standardDeck.reverse.map some ∧
    ((dealN Deck.construct 52).1.filterMap id).Nodup ∧
    (dealN Deck.construct 52).1.all Option.isSome = true ∧
    (dealN Deck.construct 53).1.getLast? = some none ∧
    ∀ k : Nat, (dealN Deck.construct k).2.num_cards = 52 - k := by
  refine ⟨by decide, by decide, by decide, by decide, ?_⟩
  intro k
  have h := dealN_num_cards k Deck.construct
  have h52 : Deck.construct.num_cards = 52 := by decide
  rw [h, h52]

/-- Counterexample to C2 as stated: after `reset()` the first dealt card
is the King of Spades — the LAST card of the construction order — not the
first one (the Ace of Clubs), because `deal_card` pops from the back of
the live sequence. -/
theorem reset_deal_order_cex :
    (Deck.construct.reset.deal_card).1 = some (Card.mk .Spade .King) ∧
    standardDeck.getD 0 (Card.mk .Spade .King) = Card.mk .Club .Ace ∧
    Card.mk Suit.Spade Value.King ≠ Card.mk Suit.Club Value.Ace := by
  refine ⟨by decide, by decide, by decide⟩

/-- Claim C2 (amended): after any successful sequence of calls, `reset()`
restores the count to 52 and the next 52 deals return exactly the
REVERSE of the original construction order (first dealt card = last
constructed card). -/
theorem reset_restores_and_deals_reverse_order (ops : List Op) (d : Deck)
    (h : runOps ops Deck.construct = some d) :
    d.reset.num_cards = 52 ∧
    (dealN d.reset 52).1 = standardDeck.reverse.map some := by
  have horig : d.m_original_cards = standardDeck :=
    (runOps_inv ops Deck.construct d deckInv_construct h).1
  have hr : d.reset = Deck.mk standardDeck standardDeck := by
    unfold Deck.reset
    rw [horig]
  rw [hr]
  exact ⟨by decide, by decide⟩

/-- Witness for C2 (amended) after a one-deal history. -/
theorem reset_restores_and_deals_reverse_order_witness :
    (Deck.mk standardDeck.dropLast standardDeck).reset.num_cards = 52 ∧
    (dealN (Deck.mk standardDeck.dropLast standardDeck).reset 52).1 =
      standardDeck.reverse.map some :=
  reset_restores_and_deals_reverse_order [Op.deal]
    (Deck.mk standardDeck.dropLast standardDeck) (by decide)

/-- Counterexample to C3 as stated: at the reachable state where all 52
cards have been dealt, `shuffle()` does not return with the multiset
preserved — it runs into modulo-by-zero undefined behaviour. -/
theorem shuffle_empty_deck_cex :
    Deck.shuffle (dealN Deck.construct 52).2 (fun _ => 0) = none :=
  Deck.shuffle_nil _ _ (by decide)

/-- Claim C3 (amended): whenever `shuffle()` completes (which it does
exactly on a non-empty live sequence), the multiset of live cards and
the card count are unchanged. -/
theorem shuffle_preserves_multiset (d d' : Deck) (rand : Nat → Nat)
    (h : d.shuffle rand = some d') :
    ((d'.m_cards : Multiset Card) = (d.m_cards : Multiset Card)) ∧
    d'.num_cards = d.num_cards := by
  obtain ⟨hperm, _⟩ := Deck.shuffle_spec d d' rand h
  exact ⟨Multiset.coe_eq_coe.mpr hperm, hperm.length_eq⟩

/-- Witness for C3 (amended) on a full deck, with a random stream that
happens to swap every position with itself. -/
theorem shuffle_preserves_multiset_witness :
    ((Deck.construct.m_cards : Multiset Card) = (Deck.construct.m_cards : Multiset Card)) ∧
    Deck.construct.num_cards = Deck.construct.num_cards :=
  shuffle_preserves_multiset Deck.construct Deck.construct (fun k => 51 - k) (by decide)

/-- Claim C6 is violated by the code: dealing all 52 cards and then
calling `shuffle()` crashes — the `size_t` loop initialisation
`m_cards.size() - 1` wraps to `2^64 - 1`, the loop is entered, and
`rand() % (i + 1)` is a modulo by zero.  The claim (shuffle cannot fail,
even on the exhausted deck) matches the spec but not the code. -/
theorem shuffle_empty_deck_crashes :
    runOps (List.replicate 52 Op.deal ++ [Op.shuffle (fun _ => 1)]) Deck.construct = none := by
  rw [runOps_append]
  have h52 : runOps (List.replicate 52 Op.deal) Deck.construct =
      some (Deck.mk [] standardDeck) := by decide
  rw [h52]
  show runOps [Op.shuffle (fun _ => 1)] (Deck.mk [] standardDeck) = none
  unfold runOps
  rw [show stepOp (Deck.mk [] standardDeck) (Op.shuffle (fun _ => 1)) = none from
    Deck.shuffle_nil _ _ rfl]

/-- Counterexample to C7 as stated: on an empty live sequence the spec's
Fisher–Yates loop (from `size - 1` down to `1`) performs no iterations,
but the code's shuffle does not act as that no-op — it hits undefined
behaviour (wrapped counter, modulo by zero) and never completes. -/
theorem shuffle_fisherYates_empty_cex :
    Deck.shuffle (Deck.mk [] standardDeck) (fun _ => 2) = none :=
  Deck.shuffle_nil _ _ rfl

/-- Claim C7 (amended): on a non-empty live sequence (of any realistic
size), `shuffle()` computes exactly the Fisher–Yates algorithm of the
spec: for `i` from `size - 1` down to `1` it draws `j = rand() % (i + 1)`
— the `k`-th drawn value, reduced into `[0, i]` — swaps positions `i` and
`j`, and mutates nothing else (the original sequence is part of the
unchanged record). -/
theorem shuffle_implements_fisherYates (d : Deck) (rand : Nat → Nat)
    (hne : d.m_cards ≠ []) (hsz : d.m_cards.length < 2 ^ 64) :
    d.shuffle rand =
      some { d with m_cards := (fisherYates (fun k => rand k % (d.m_cards.length - k))
        d.m_cards (d.m_cards.length - 1) 0) } ∧
    ∀ k, k < d.m_cards.length - 1 →
      rand k % (d.m_cards.length - k) ≤ d.m_cards.length - 1 - k := by
  refine ⟨Deck.shuffle_eq_fisherYates d rand hne hsz, ?_⟩
  intro k hk
  have h2 : 0 < d.m_cards.length - k := by omega
  have := Nat.mod_lt (rand k) h2
  omega

/-- Witness for C7 (amended) on a full deck with a constant random
stream. -/
theorem shuffle_implements_fisherYates_witness :
    Deck.construct.shuffle (fun _ => 7) =
      some { Deck.construct with
        m_cards := fisherYates (fun k => 7 % (Deck.construct.m_cards.length - k))
          Deck.construct.m_cards (Deck.construct.m_cards.length - 1) 0 } :=
  (shuffle_implements_fisherYates Deck.construct (fun _ => 7) (by decide) (by decide)).1

/-- Claim C8: after any successful sequence of calls starting from a
fresh deck, the live sequence is a duplicate-free sub-multiset of the
original 52-card sequence, holds at most 52 cards, and the original
sequence still equals its construction value. -/
theorem deck_live_subset_invariant (ops : List Op) (d : Deck)
    (h : runOps ops Deck.construct = some d) :
    d.m_original_cards = standardDeck ∧
    d.m_cards.Nodup ∧
    (d.m_cards : Multiset Card) ≤ (standardDeck : Multiset Card) ∧
    d.m_cards.length ≤ 52 := by
  obtain ⟨ho, hn, hs, hl⟩ := runOps_inv ops Deck.construct d deckInv_construct h
  exact ⟨ho, hn, nodup_subset_multiset_le _ hn hs, hl⟩

/-- Witness for C8 after a deal-then-reset history. -/
theorem deck_live_subset_invariant_witness :
    Deck.construct.m_original_cards = standardDeck ∧
    Deck.construct.m_cards.Nodup ∧
    (Deck.construct.m_cards : Multiset Card) ≤ (standardDeck : Multiset Card) ∧
    Deck.construct.m_cards.length ≤ 52 :=
  deck_live_subset_invariant [Op.deal, Op.reset] Deck.construct (by decide)

end DeckOfCards
